import Mathlib

/-!
Verification of the random I/O tester benchmark harness (`src/main.rs`).

The development shallowly embeds the benchmark's core computations:

* the per-thread operation-share computation of `run_standard_io_tests` /
  `run_mmap_tests` (`main.rs` lines 134-140 and 224-230);
* the first-touch tracker (the mutex-guarded `HashSet<String>` whose
  `insert` return value is the `is_first_read` flag, lines 167-170 / 256-259);
* the per-worker operation loop (lines 154-183 / 244-272), parametrised by
  an abstract deterministic random generator standing for `StdRng` and by an
  abstract read-success predicate standing for the outcome of the timed read;
* the bounds-checked mapped read `perform_mmap_read` (lines 289-300);
* the latency statistics `calculate_statistics` (lines 326-364).

Durations are modelled as natural numbers of nanoseconds (Rust `Duration`
has nanosecond precision and its division by an integer count truncates at
the nanosecond).  Machine `usize`/`u64` arithmetic in the embedded code paths
never overflows for the values the claims touch, so plain `Nat` is used;
where Rust arithmetic can panic (division by zero in the share computation)
the embedding returns `Option.none` instead.
-/

/-- The `Statistics` struct of `main.rs` (lines 59-69); every field a
duration in nanoseconds except `count`. -/
structure Statistics where
  count : Nat
  avg : Nat
  median : Nat
  p90 : Nat
  p95 : Nat
  p99 : Nat
  min : Nat
  max : Nat
deriving DecidableEq

/-- Median index `count / 2` used at `main.rs` line 347. -/
def medianIndex (count : Nat) : Nat := count / 2

/-- Percentile index `(count as f64 * 0.90) as usize` of `main.rs` line 348,
modelled as the exact rational truncation `count * 90 / 100`.  The `f64`
product agrees with the exact rational one after truncation for every count
below 2^49, far beyond any feasible sample size, because the relative
rounding error of `0.90` and of the product is below 2^-50 while the
fractional part of an inexact `count * 9 / 10` is at least `1 / 10`. -/
def p90Index (count : Nat) : Nat := count * 90 / 100

/-- Percentile index `(count as f64 * 0.95) as usize` of `main.rs` line 349,
modelled exactly like `p90Index`. -/
def p95Index (count : Nat) : Nat := count * 95 / 100

/-- Percentile index `(count as f64 * 0.99) as usize` of `main.rs` line 350,
modelled exactly like `p90Index`. -/
def p99Index (count : Nat) : Nat := count * 99 / 100

/-- `calculate_statistics` of `main.rs` lines 326-364.  The argument is the
list of sampled latencies in nanoseconds; `sort` is modelled by insertion
sort (both are ascending sorts of a list of naturals, hence produce the same
list).  Indexing into the sorted vector is modelled with `getD`; the bounds
theorem below shows every index used is in range for a nonempty sample, so
the default is never consulted, matching the never-panicking Rust indexing. -/
def calculate_statistics (latencies : List Nat) : Statistics :=
  if latencies.isEmpty then
    { count := 0, avg := 0, median := 0, p90 := 0, p95 := 0, p99 := 0,
      min := 0, max := 0 }
  else
    let sorted_latencies := List.insertionSort (· ≤ ·) latencies
    let count := sorted_latencies.length
    let sum := sorted_latencies.foldl (· + ·) 0
    let avg := sum / count
    { count := count
      avg := avg
      median := sorted_latencies.getD (medianIndex count) 0
      p90 := sorted_latencies.getD (p90Index count) 0
      p95 := sorted_latencies.getD (p95Index count) 0
      p99 := sorted_latencies.getD (p99Index count) 0
      min := sorted_latencies.headD 0
      max := sorted_latencies.getLastD 0 }

/-- The per-thread operation share of `main.rs` line 140 (and 230):
`operations_per_thread + if thread_id < remainder { 1 } else { 0 }` with
`operations_per_thread = num_operations / num_threads` and
`remainder = num_operations % num_threads` (lines 134-135 / 224-225). -/
def thread_operations (num_operations num_threads thread_id : Nat) : Nat :=
  num_operations / num_threads +
    if thread_id < num_operations % num_threads then 1 else 0

/-- Rust integer division, which panics when the divisor is zero;
the panic is modelled as `Option.none`. -/
def rustDiv (a b : Nat) : Option Nat :=
  if b = 0 then none else some (a / b)

/-- Rust integer remainder, which panics when the divisor is zero;
the panic is modelled as `Option.none`. -/
def rustMod (a b : Nat) : Option Nat :=
  if b = 0 then none else some (a % b)

/-- The orchestrator's share computation, `main.rs` lines 134-140 (and
224-230), with Rust division semantics: `num_operations / num_threads`
panics when `num_threads = 0`, modelled as `Option.none`; otherwise the list
of all per-thread shares is produced. -/
def computeShares (num_operations num_threads : Nat) : Option (List Nat) :=
  match rustDiv num_operations num_threads, rustMod num_operations num_threads with
  | some _, some _ =>
      some ((List.range num_threads).map (thread_operations num_operations num_threads))
  | _, _ => none

/-- The quota of ones among the first `t` naturals below the cutoff `r`. -/
theorem sum_ite_lt_range (r t : Nat) :
    (∑ i ∈ Finset.range t, if i < r then 1 else 0) = min r t := by
  induction t with
  | zero => simp
  | succ t ih =>
      rw [Finset.sum_range_succ, ih]
      by_cases h : t < r
      · simp only [if_pos h]
        omega
      · simp only [if_neg h]
        omega

/-- C2: for every `num_operations` and every `num_threads ≥ 1`, the
per-worker shares sum exactly to `num_operations`, no two shares differ by
more than 1, and exactly the first `num_operations % num_threads` workers by
index receive the extra operation. -/
theorem thread_shares_partition (n t : Nat) (h : 1 ≤ t) :
    (∑ i ∈ Finset.range t, thread_operations n t i) = n
    ∧ (∀ i, i < t → ∀ j, j < t →
        thread_operations n t i ≤ thread_operations n t j + 1)
    ∧ (∀ i, i < n % t → thread_operations n t i = n / t + 1)
    ∧ (∀ i, n % t ≤ i → thread_operations n t i = n / t) := by
  refine ⟨?_, ?_, ?_, ?_⟩
  · have hmod : n % t < t := Nat.mod_lt _ (by omega)
    unfold thread_operations
    calc (∑ i ∈ Finset.range t, (n / t + if i < n % t then 1 else 0))
        = (∑ _i ∈ Finset.range t, n / t)
          + ∑ i ∈ Finset.range t, (if i < n % t then 1 else 0) := by
          rw [← Finset.sum_add_distrib]
      _ = t * (n / t) + n % t := by
          rw [Finset.sum_const, Finset.card_range, smul_eq_mul,
            sum_ite_lt_range]
          omega
      _ = n := Nat.div_add_mod n t
  · intro i _ j _
    unfold thread_operations
    split <;> split <;> omega
  · intro i hi
    unfold thread_operations
    rw [if_pos hi]
  · intro i hi
    unfold thread_operations
    rw [if_neg (by omega)]
    omega

theorem thread_shares_partition_witness :
    thread_operations 10 4 0 + thread_operations 10 4 1 + thread_operations 10 4 2
      + thread_operations 10 4 3 = 10
    ∧ thread_operations 10 4 1 = 3 ∧ thread_operations 10 4 3 = 2 := by
  have h := thread_shares_partition 10 4 (by decide)
  refine ⟨?_, h.2.2.1 1 (by decide), h.2.2.2 3 (by decide)⟩
  have hs := h.1
  simp [Finset.sum_range_succ] at hs
  omega

/-- C3: the share computation does not in fact survive `num_threads = 0`:
`num_operations / num_threads` is a Rust division by zero, which panics
(modelled by `Option.none`), contradicting the claim that the sequence
completes without panicking; for any `num_threads ≥ 1` — in particular one
exceeding `num_operations` — it completes normally. -/
theorem shares_panic_on_zero_threads :
    computeShares 1000 0 = none
    ∧ (∀ n, computeShares n 0 = none)
    ∧ computeShares 3 8 =
        some ((List.range 8).map (thread_operations 3 8)) := by
  refine ⟨rfl, fun n => rfl, rfl⟩

/-- C9: for every nonempty sample, every index `calculate_statistics` uses
into the ascending-sorted copy of the sample — `count / 2` for the median
and the truncated `count * k` for the percentiles — is strictly below the
sorted list's length, so all indexing is in bounds. -/
theorem statistics_indices_in_bounds (l : List Nat) (h : l ≠ []) :
    medianIndex l.length < (List.insertionSort (· ≤ ·) l).length
    ∧ p90Index l.length < (List.insertionSort (· ≤ ·) l).length
    ∧ p95Index l.length < (List.insertionSort (· ≤ ·) l).length
    ∧ p99Index l.length < (List.insertionSort (· ≤ ·) l).length := by
  have hpos : 0 < l.length := List.length_pos.mpr h
  rw [List.length_insertionSort]
  refine ⟨Nat.div_lt_self hpos (by omega), ?_, ?_, ?_⟩
  · rw [p90Index, Nat.div_lt_iff_lt_mul (by omega)]
    omega
  · rw [p95Index, Nat.div_lt_iff_lt_mul (by omega)]
    omega
  · rw [p99Index, Nat.div_lt_iff_lt_mul (by omega)]
    omega

theorem statistics_indices_in_bounds_witness :
    medianIndex 2 < (List.insertionSort (· ≤ ·) [5, 7]).length
    ∧ p90Index 2 < (List.insertionSort (· ≤ ·) [5, 7]).length :=
  ⟨(statistics_indices_in_bounds [5, 7] (by decide)).1,
   (statistics_indices_in_bounds [5, 7] (by decide)).2.1⟩

/-- C4: on the sample 1µs..10µs (1000ns..10000ns), `calculate_statistics`
returns min 1µs, max 10µs, median the element at index 5 (6µs), p90 the
element at index 9 (10µs) and average 5.5µs (5500ns) — the index-truncation
percentile rule, not a ceiling-rank rule (which would give p90 = 9µs). -/
theorem statistics_roundtrip_sample :
    medianIndex 10 = 5 ∧ p90Index 10 = 9
    ∧ calculate_statistics
        [1000, 2000, 3000, 4000, 5000, 6000, 7000, 8000, 9000, 10000] =
      { count := 10, avg := 5500, median := 6000, p90 := 10000,
        p95 := 10000, p99 := 10000, min := 1000, max := 10000 } := by
  refine ⟨rfl, rfl, ?_⟩
  decide

/-- C7: on the empty sample, `calculate_statistics` returns count 0 and all
seven duration metrics zero, without failing. -/
theorem statistics_empty_sample :
    calculate_statistics [] =
      { count := 0, avg := 0, median := 0, p90 := 0, p95 := 0, p99 := 0,
        min := 0, max := 0 } := rfl

/-- The key stored in the first-touch `HashSet`, `main.rs` line 169 (and
258): the string `format!("{}:{}", file_index, block_index)`. -/
def mkKey (file_index block_index : Nat) : String :=
  toString file_index ++ ":" ++ toString block_index

/-- One call of the first-touch tracker, `main.rs` lines 167-170 (and
256-259): under the mutex, `HashSet::insert` adds the key and returns `true`
exactly when the key was not yet present.  The mutex serialises the calls of
all workers, so a run's tracker history is some sequence of these calls. -/
def mark_and_check (read_blocks : Finset String) (key : String) :
    Bool × Finset String :=
  (decide (key ∉ read_blocks), insert key read_blocks)

/-- The serialised history of tracker calls of one run: an arbitrary
interleaving of the workers' calls is an arbitrary list of presented keys;
each call is answered by `mark_and_check` on the state left by the previous
one.  Returns each presented key paired with the boolean it received. -/
def runTracker (read_blocks : Finset String) :
    List String → List (String × Bool)
  | [] => []
  | key :: rest =>
      let r := mark_and_check read_blocks key
      (key, r.1) :: runTracker r.2 rest

theorem runTracker_countP (trace : List String) (read_blocks : Finset String)
    (k : String) :
    List.countP (fun p => p.1 == k && p.2) (runTracker read_blocks trace)
      = if k ∈ trace ∧ k ∉ read_blocks then 1 else 0 := by
  induction trace generalizing read_blocks with
  | nil => simp [runTracker]
  | cons a rest ih =>
      rw [runTracker]
      simp only [mark_and_check]
      rw [List.countP_cons, ih (insert a read_blocks)]
      by_cases hak : a = k
      · subst hak
        simp [Finset.mem_insert]
      · have hbeq : (a == k) = false := by
          simpa using hak
        have hka : ¬k = a := fun hh => hak hh.symm
        simp [hbeq, Finset.mem_insert, hka]

/-- C1: in any serialised history of tracker calls of one run — the mutex of
`main.rs` lines 167-170 / 256-259 linearises the workers' concurrent calls
into some such sequence, whatever the interleaving — every key presented in
the history receives `true` from exactly one `mark_and_check` call and
`false` from every other call for that key, and a key never presented
receives no `true`. -/
theorem first_touch_exactly_once (trace : List String) (k : String) :
    List.countP (fun p => p.1 == k && p.2) (runTracker ∅ trace)
      = if k ∈ trace then 1 else 0 := by
  rw [runTracker_countP]
  simp

/-- The result record a worker accumulates, `ReadResult` of `main.rs` lines
53-57, extended with the identifying draw data of the operation that
produced it (its wall-clock `latency` is real time and is not modelled). -/
structure ModelReadResult where
  fileIndex : Nat
  blockIndex : Nat
  offset : Nat
  is_first_read : Bool
deriving DecidableEq

/-- An abstract deterministic random generator standing for `StdRng`:
a seeding function (for `StdRng::seed_from_u64`) and a bounded draw (for
`rng.gen_range(0..bound)`), which must land inside a nonempty range. -/
structure RNG (σ : Type) where
  seedFrom : Nat → σ
  genRange : Nat → σ → Nat × σ
  genRange_lt : ∀ bound s, 0 < bound → (genRange bound s).1 < bound

/-- The per-worker operation loop of `run_standard_io_tests` (`main.rs`
lines 154-183) and, identically, of `run_mmap_tests` (lines 244-272):
draw a file index, compute `max_blocks = file_size / block_size`, `continue`
when it is zero, otherwise draw a block index, compute the byte offset,
mark the key in the shared tracker (before the read, whatever its outcome),
perform the read, and record a result only when the read succeeded.
`readOk file_index offset` stands for `result.is_ok()` of the timed read;
the list of accumulated results and the final tracker state are returned. -/
def workerLoop {σ : Type} (R : RNG σ) (num_files file_size block_size : Nat)
    (readOk : Nat → Nat → Bool) :
    Nat → σ → Finset String → List ModelReadResult × Finset String
  | 0, _, read_blocks => ([], read_blocks)
  | opsLeft + 1, s, read_blocks =>
      let fileDraw := R.genRange num_files s
      let file_index := fileDraw.1
      let max_blocks := file_size / block_size
      if max_blocks = 0 then
        workerLoop R num_files file_size block_size readOk opsLeft fileDraw.2
          read_blocks
      else
        let blockDraw := R.genRange max_blocks fileDraw.2
        let block_index := blockDraw.1
        let offset := block_index * block_size
        let mc := mark_and_check read_blocks (mkKey file_index block_index)
        let rest := workerLoop R num_files file_size block_size readOk opsLeft
          blockDraw.2 mc.2
        if readOk file_index offset then
          (⟨file_index, block_index, offset, mc.1⟩ :: rest.1, rest.2)
        else rest

/-- The sequence of (file_index, block_index, byte_offset) draws of one
worker, i.e. the projection of `workerLoop` to its generator draws
(`main.rs` lines 154-164 / 244-253), which consult neither the shared
tracker nor the read outcomes. -/
def workerPattern {σ : Type} (R : RNG σ) (num_files file_size block_size : Nat) :
    Nat → σ → List (Nat × Nat × Nat)
  | 0, _ => []
  | opsLeft + 1, s =>
      let fileDraw := R.genRange num_files s
      let max_blocks := file_size / block_size
      if max_blocks = 0 then
        workerPattern R num_files file_size block_size opsLeft fileDraw.2
      else
        let blockDraw := R.genRange max_blocks fileDraw.2
        (fileDraw.1, blockDraw.1, blockDraw.1 * block_size)
          :: workerPattern R num_files file_size block_size opsLeft blockDraw.2

/-- The access-pattern sequence of worker `w` of a run with global seed
`seed`: the generator is created as `StdRng::seed_from_u64(seed + w)`
(`main.rs` line 151 / 241) and drives the draw sequence. -/
def patternOfWorker {σ : Type} (R : RNG σ)
    (num_files file_size block_size numOps seed w : Nat) : List (Nat × Nat × Nat) :=
  workerPattern R num_files file_size block_size numOps (R.seedFrom (seed + w))

/-- A concrete executable generator used to witness the generic theorems:
seeding is the identity and a draw below `bound` is `s % bound`. -/
def lcg : RNG Nat where
  seedFrom := fun s => s
  genRange := fun bound s => (s % bound, s * 7 + 3)
  genRange_lt := fun _bound s h => Nat.mod_lt s h

theorem workerLoop_succ_zero {σ : Type} (R : RNG σ) (nf fs bs : Nat)
    (readOk : Nat → Nat → Bool) (n : Nat) (s : σ) (t : Finset String)
    (h0 : fs / bs = 0) :
    workerLoop R nf fs bs readOk (n + 1) s t
      = workerLoop R nf fs bs readOk n (R.genRange nf s).2 t := by
  rw [workerLoop]
  simp [h0]

theorem workerLoop_succ_pos {σ : Type} (R : RNG σ) (nf fs bs : Nat)
    (readOk : Nat → Nat → Bool) (n : Nat) (s : σ) (t : Finset String)
    (h0 : ¬fs / bs = 0) :
    workerLoop R nf fs bs readOk (n + 1) s t
      = (let fd := R.genRange nf s
         let bd := R.genRange (fs / bs) fd.2
         let mc := mark_and_check t (mkKey fd.1 bd.1)
         let rest := workerLoop R nf fs bs readOk n bd.2 mc.2
         if readOk fd.1 (bd.1 * bs) then
           (⟨fd.1, bd.1, bd.1 * bs, mc.1⟩ :: rest.1, rest.2)
         else rest) := by
  rw [workerLoop]
  simp [h0]

theorem workerPattern_succ_zero {σ : Type} (R : RNG σ) (nf fs bs : Nat)
    (n : Nat) (s : σ) (h0 : fs / bs = 0) :
    workerPattern R nf fs bs (n + 1) s
      = workerPattern R nf fs bs n (R.genRange nf s).2 := by
  rw [workerPattern]
  simp [h0]

theorem workerPattern_succ_pos {σ : Type} (R : RNG σ) (nf fs bs : Nat)
    (n : Nat) (s : σ) (h0 : ¬fs / bs = 0) :
    workerPattern R nf fs bs (n + 1) s
      = (let fd := R.genRange nf s
         let bd := R.genRange (fs / bs) fd.2
         (fd.1, bd.1, bd.1 * bs) :: workerPattern R nf fs bs n bd.2) := by
  rw [workerPattern]
  simp [h0]

theorem workerLoop_results_readOk {σ : Type} (R : RNG σ) (nf fs bs : Nat)
    (readOk : Nat → Nat → Bool) :
    ∀ (n : Nat) (s : σ) (t : Finset String),
      ∀ r ∈ (workerLoop R nf fs bs readOk n s t).1,
        readOk r.fileIndex r.offset = true := by
  intro n
  induction n with
  | zero =>
      intro s t r hr
      rw [workerLoop] at hr
      simp at hr
  | succ n ih =>
      intro s t r hr
      by_cases h0 : fs / bs = 0
      · rw [workerLoop_succ_zero R nf fs bs readOk n s t h0] at hr
        exact ih _ _ r hr
      · rw [workerLoop_succ_pos R nf fs bs readOk n s t h0] at hr
        simp only at hr
        by_cases hro : readOk (R.genRange nf s).1
            ((R.genRange (fs / bs) (R.genRange nf s).2).1 * bs)
        · rw [if_pos hro] at hr
          rcases List.mem_cons.mp hr with hhead | htail
          · subst hhead
            exact hro
          · exact ih _ _ r htail
        · rw [if_neg hro] at hr
          exact ih _ _ r hr

theorem workerLoop_tracker_indep {σ : Type} (R : RNG σ) (nf fs bs : Nat)
    (readOk readOk2 : Nat → Nat → Bool) :
    ∀ (n : Nat) (s : σ) (t : Finset String),
      (workerLoop R nf fs bs readOk n s t).2
        = (workerLoop R nf fs bs readOk2 n s t).2 := by
  intro n
  induction n with
  | zero =>
      intro s t
      rw [workerLoop, workerLoop]
  | succ n ih =>
      intro s t
      by_cases h0 : fs / bs = 0
      · rw [workerLoop_succ_zero R nf fs bs readOk n s t h0,
          workerLoop_succ_zero R nf fs bs readOk2 n s t h0]
        exact ih _ _
      · rw [workerLoop_succ_pos R nf fs bs readOk n s t h0,
          workerLoop_succ_pos R nf fs bs readOk2 n s t h0]
        simp only
        split <;> split <;> exact ih _ _

theorem workerLoop_tracker_mono {σ : Type} (R : RNG σ) (nf fs bs : Nat)
    (readOk : Nat → Nat → Bool) :
    ∀ (n : Nat) (s : σ) (t : Finset String),
      t ⊆ (workerLoop R nf fs bs readOk n s t).2 := by
  intro n
  induction n with
  | zero =>
      intro s t
      rw [workerLoop]
  | succ n ih =>
      intro s t
      by_cases h0 : fs / bs = 0
      · rw [workerLoop_succ_zero R nf fs bs readOk n s t h0]
        exact ih _ _
      · rw [workerLoop_succ_pos R nf fs bs readOk n s t h0]
        simp only [mark_and_check]
        have hsub := Finset.subset_insert
          (mkKey (R.genRange nf s).1 (R.genRange (fs / bs) (R.genRange nf s).2).1) t
        split
        · exact hsub.trans (ih _ _)
        · exact hsub.trans (ih _ _)

theorem workerLoop_marked_false {σ : Type} (R : RNG σ) (nf fs bs : Nat)
    (readOk : Nat → Nat → Bool) (f b : Nat) :
    ∀ (n : Nat) (s : σ) (t : Finset String), mkKey f b ∈ t →
      ∀ r ∈ (workerLoop R nf fs bs readOk n s t).1,
        r.fileIndex = f → r.blockIndex = b → r.is_first_read = false := by
  intro n
  induction n with
  | zero =>
      intro s t _ r hr
      rw [workerLoop] at hr
      simp at hr
  | succ n ih =>
      intro s t ht r hr hf hb
      by_cases h0 : fs / bs = 0
      · rw [workerLoop_succ_zero R nf fs bs readOk n s t h0] at hr
        exact ih _ _ ht r hr hf hb
      · rw [workerLoop_succ_pos R nf fs bs readOk n s t h0] at hr
        simp only [mark_and_check] at hr
        have htail : mkKey f b ∈
            insert (mkKey (R.genRange nf s).1
              (R.genRange (fs / bs) (R.genRange nf s).2).1) t :=
          Finset.mem_insert_of_mem ht
        split at hr
        · rcases List.mem_cons.mp hr with hhead | hmem
          · subst hhead
            simp only at hf hb ⊢
            rw [hf, hb]
            simp [ht]
          · exact ih _ _ htail r hmem hf hb
        · exact ih _ _ htail r hr hf hb

theorem workerPattern_offset {σ : Type} (R : RNG σ) (nf fs bs : Nat) :
    ∀ (n : Nat) (s : σ), ∀ tup ∈ workerPattern R nf fs bs n s,
      tup.2.2 = tup.2.1 * bs := by
  intro n
  induction n with
  | zero =>
      intro s tup htup
      rw [workerPattern] at htup
      simp at htup
  | succ n ih =>
      intro s tup htup
      by_cases h0 : fs / bs = 0
      · rw [workerPattern_succ_zero R nf fs bs n s h0] at htup
        exact ih _ tup htup
      · rw [workerPattern_succ_pos R nf fs bs n s h0] at htup
        simp only at htup
        rcases List.mem_cons.mp htup with hhead | hmem
        · subst hhead
          rfl
        · exact ih _ tup hmem

theorem workerLoop_zero_blocks {σ : Type} (R : RNG σ) (nf fs bs : Nat)
    (readOk : Nat → Nat → Bool) (h0 : fs / bs = 0) :
    ∀ (n : Nat) (s : σ) (t : Finset String),
      (workerLoop R nf fs bs readOk n s t).1 = []
      ∧ (workerLoop R nf fs bs readOk n s t).2 = t := by
  intro n
  induction n with
  | zero =>
      intro s t
      rw [workerLoop]
      exact ⟨rfl, rfl⟩
  | succ n ih =>
      intro s t
      rw [workerLoop_succ_zero R nf fs bs readOk n s t h0]
      exact ih _ _

theorem workerPattern_zero_blocks {σ : Type} (R : RNG σ) (nf fs bs : Nat)
    (h0 : fs / bs = 0) :
    ∀ (n : Nat) (s : σ), workerPattern R nf fs bs n s = [] := by
  intro n
  induction n with
  | zero =>
      intro s
      rw [workerPattern]
  | succ n ih =>
      intro s
      rw [workerPattern_succ_zero R nf fs bs n s h0]
      exact ih _

/-- C5: the access-pattern sequence of a worker is a pure function of
`seed + worker_index` and the configuration — so two runs with the same
seed, the same worker count and the same configuration give every worker an
identical (file_index, block_index, byte_offset) sequence, the generator
being seeded exactly as `seed + worker_index`; moreover every emitted byte
offset is `block_index * block_size`. -/
theorem pattern_seed_additive {σ : Type} (R : RNG σ)
    (nf fs bs numOps seed w seed2 w2 : Nat) (h : seed + w = seed2 + w2) :
    patternOfWorker R nf fs bs numOps seed w
      = patternOfWorker R nf fs bs numOps seed2 w2
    ∧ ∀ tup ∈ patternOfWorker R nf fs bs numOps seed w,
        tup.2.2 = tup.2.1 * bs := by
  constructor
  · rw [patternOfWorker, patternOfWorker, h]
  · intro tup htup
    exact workerPattern_offset R nf fs bs numOps _ tup htup

theorem pattern_seed_additive_witness :
    patternOfWorker lcg 2 1024 256 3 40 2 = patternOfWorker lcg 2 1024 256 3 41 1
    ∧ patternOfWorker lcg 2 1024 256 3 40 2
        = [(0, 1, 256), (0, 1, 256), (0, 1, 256)] :=
  ⟨(pattern_seed_additive lcg 2 1024 256 3 40 2 41 1 (by decide)).1, by decide⟩

/-- C8: in a degenerate configuration with `file_size / block_size = 0`
(block size larger than file size) every loop iteration hits the `continue`
at `main.rs` line 161 / 250: no block index is drawn, no read is performed,
no result is recorded and the tracker is left untouched — and this is not
treated as an error. -/
theorem zero_blocks_no_operations {σ : Type} (R : RNG σ)
    (nf fs bs : Nat) (readOk : Nat → Nat → Bool) (n : Nat) (s : σ)
    (t : Finset String) (h0 : fs / bs = 0) :
    (workerLoop R nf fs bs readOk n s t).1 = []
    ∧ (workerLoop R nf fs bs readOk n s t).2 = t
    ∧ workerPattern R nf fs bs n s = [] :=
  ⟨(workerLoop_zero_blocks R nf fs bs readOk h0 n s t).1,
   (workerLoop_zero_blocks R nf fs bs readOk h0 n s t).2,
   workerPattern_zero_blocks R nf fs bs h0 n s⟩

theorem zero_blocks_no_operations_witness :
    (workerLoop lcg 4 100 256 (fun _ _ => true) 5 0 ∅).1 = []
    ∧ (workerLoop lcg 4 100 256 (fun _ _ => true) 5 0 ∅).2 = ∅
    ∧ workerPattern lcg 4 100 256 5 0 = [] :=
  zero_blocks_no_operations lcg 4 100 256 (fun _ _ => true) 5 0 ∅ (by decide)

/-- C10: the first-touch registry is updated before the read is attempted
and regardless of the read's outcome: the final tracker state is the same
under any two read-outcome predicates, keys already marked stay marked,
a failing operation records no result (every recorded result passed the
read-success test), and once a block's key is marked every later recorded
result for that block carries `is_first_read = false` — so a block whose
first read failed never contributes a sample to the first-read subset. -/
theorem first_touch_marked_before_read {σ : Type} (R : RNG σ)
    (nf fs bs : Nat) (readOk readOk2 : Nat → Nat → Bool) (n : Nat) (s : σ)
    (t : Finset String) (f b : Nat) (h : mkKey f b ∈ t) :
    (∀ r ∈ (workerLoop R nf fs bs readOk n s t).1,
        readOk r.fileIndex r.offset = true)
    ∧ (workerLoop R nf fs bs readOk n s t).2
        = (workerLoop R nf fs bs readOk2 n s t).2
    ∧ t ⊆ (workerLoop R nf fs bs readOk n s t).2
    ∧ (∀ r ∈ (workerLoop R nf fs bs readOk n s t).1,
        r.fileIndex = f → r.blockIndex = b → r.is_first_read = false) :=
  ⟨workerLoop_results_readOk R nf fs bs readOk n s t,
   workerLoop_tracker_indep R nf fs bs readOk readOk2 n s t,
   workerLoop_tracker_mono R nf fs bs readOk n s t,
   workerLoop_marked_false R nf fs bs readOk f b n s t h⟩

theorem first_touch_marked_before_read_witness :
    (workerLoop lcg 2 1024 256 (fun _ _ => true) 2 0 {mkKey 0 1}).2
      = (workerLoop lcg 2 1024 256 (fun _ _ => false) 2 0 {mkKey 0 1}).2 :=
  (first_touch_marked_before_read lcg 2 1024 256 (fun _ _ => true)
    (fun _ _ => false) 2 0 {mkKey 0 1} 0 1
    (Finset.mem_singleton_self (mkKey 0 1))).2.1

/-- `perform_mmap_read` of `main.rs` lines 289-300: fail with the
out-of-bounds error when `offset + block_size > mmap.len()`, otherwise copy
the addressed byte range `mmap[offset..offset + block_size]`. -/
def perform_mmap_read (mmap : List Nat) (offset block_size : Nat) :
    Except String (List Nat) :=
  if offset + block_size > mmap.length then
    Except.error "Read beyond file bounds"
  else
    Except.ok ((mmap.drop offset).take block_size)

theorem perform_mmap_read_isOk (mmap : List Nat) (offset block_size : Nat) :
    (perform_mmap_read mmap offset block_size).isOk = true
      ↔ offset + block_size ≤ mmap.length := by
  unfold perform_mmap_read
  split
  · next h =>
    simp only [Except.isOk]
    constructor
    · intro hh
      cases hh
    · intro hh
      omega
  · next h =>
    simp only [Except.isOk]
    constructor
    · intro _
      omega
    · intro _
      rfl

/-- C6: in mapped mode a read at an offset with
`offset + block_size > mapped_length` always returns the out-of-bounds
error, an in-bounds read returns exactly the `block_size` bytes starting at
`offset` (never a truncated slice), and — since a worker records a result
only when the read succeeded — no out-of-bounds operation appears in the
result set. -/
theorem mmap_read_bounds (mmap : List Nat) (offset block_size : Nat) :
    perform_mmap_read mmap offset block_size
      = (if offset + block_size > mmap.length then
           Except.error "Read beyond file bounds"
         else Except.ok ((mmap.drop offset).take block_size))
    ∧ (offset + block_size ≤ mmap.length →
        perform_mmap_read mmap offset block_size
            = Except.ok ((mmap.drop offset).take block_size)
          ∧ ((mmap.drop offset).take block_size).length = block_size
          ∧ ∀ i, i < block_size →
              ((mmap.drop offset).take block_size).getD i 0
                = mmap.getD (offset + i) 0)
    ∧ (∀ (σ : Type) (R : RNG σ) (mmaps : Nat → List Nat) (nf fs n : Nat)
        (s : σ) (t : Finset String),
        ∀ r ∈ (workerLoop R nf fs block_size
            (fun fi off => (perform_mmap_read (mmaps fi) off block_size).isOk)
            n s t).1,
          r.offset + block_size ≤ (mmaps r.fileIndex).length) := by
  refine ⟨rfl, ?_, ?_⟩
  · intro h
    refine ⟨?_, ?_, ?_⟩
    · rw [perform_mmap_read, if_neg (by omega)]
    · rw [List.length_take, List.length_drop]
      omega
    · intro i hi
      rw [List.getD_eq_getElem?_getD, List.getD_eq_getElem?_getD,
        List.getElem?_take, if_pos hi, List.getElem?_drop]
  · intro σ R mmaps nf fs n s t r hr
    have hok := workerLoop_results_readOk R nf fs block_size
      (fun fi off => (perform_mmap_read (mmaps fi) off block_size).isOk)
      n s t r hr
    exact (perform_mmap_read_isOk (mmaps r.fileIndex) r.offset block_size).mp hok

theorem mmap_read_bounds_witness :
    perform_mmap_read [9, 8, 7, 6] 3 2 = Except.error "Read beyond file bounds"
    ∧ perform_mmap_read [9, 8, 7, 6] 1 2 = Except.ok [8, 7]
    ∧ (([9, 8, 7, 6].drop 1).take 2).length = 2 := by
  have h1 := (mmap_read_bounds [9, 8, 7, 6] 3 2).1
  have h2 := (mmap_read_bounds [9, 8, 7, 6] 1 2).2.1 (by decide)
  refine ⟨?_, ?_, h2.2.1⟩
  · rw [h1]
    rfl
  · rw [h2.1]
    rfl
